import Mathlib

/-
Verification of the diff-addressing core of `code_review.py`, an automated
code-review GitHub action.  The Python source is shallowly embedded over
`List Char` (Python `str.split`, `str.startswith`, slicing and regular
expressions are modelled as executable Lean functions on character lists;
the external `tiktoken` tokenizer is a function parameter; the external
`ast` module and file system are parameters of the functions that use them).
Python code that raises an exception is modelled with `Except Unit`, the
`.error ()` value standing for the raised exception.
-/

namespace CodeReview

/-- Python `text.split("\x5cn")`: splits a character list at every newline.
The result is always non-empty; a trailing newline yields a final empty
line, exactly as in Python. -/
def splitOnNewline : List Char → List (List Char)
  | [] => [[]]
  | c :: rest =>
    match splitOnNewline rest with
    | [] => [[]]
    | l :: ls => if c = '\n' then [] :: l :: ls else (c :: l) :: ls

/-- Digits of a decimal numeral folded into a `Nat` (most significant first). -/
def digitsToNat : List Char → Nat → Nat
  | [], acc => acc
  | c :: rest, acc => digitsToNat rest (acc * 10 + (c.toNat - '0'.toNat))

/-- Models `re.search(r"\x5c+(\x5cd+)", line)` (and the variant with the
optional `,(\x5cd+)` suffix, whose first capture group is identical): finds
the leftmost `+` immediately followed by at least one ASCII digit and
returns the value of the maximal digit run after it.  Returns `none` when
the pattern never matches. -/
def searchPlusNum : List Char → Option Nat
  | [] => none
  | '+' :: rest =>
    match rest.takeWhile Char.isDigit with
    | [] => searchPlusNum rest
    | ds => some (digitsToNat ds 0)
  | _ :: rest => searchPlusNum rest

/-- The four prefix classes the Python functions dispatch on, in the order
the source tests them: `line.startswith("@@")` (carrying the parsed
`+newStart` field when the regex matches), then `line.startswith("+")`,
then `line.startswith("-")`, and everything else as a context line. -/
inductive LineKind where
  | header : Option Nat → LineKind
  | added : LineKind
  | removed : LineKind
  | context : LineKind
deriving DecidableEq

/-- Classifies one diff line exactly as the if/elif chains of
`get_position_in_diff` and `review_code_with_llm` do. -/
def classify (l : List Char) : LineKind :=
  match l with
  | '@' :: '@' :: _ => LineKind.header (searchPlusNum l)
  | '+' :: _ => LineKind.added
  | '-' :: _ => LineKind.removed
  | _ => LineKind.context

/-- The loop of `get_position_in_diff`: walks the diff lines carrying
`current_line` (Python `None` is `none`) and `current_position`.  A parsed
hunk header resets the line counter to `newStart - 1` and the position
counter to `0`; every other line increments the position counter; `+` lines
increment the line counter and return the position on a target hit; `-`
lines leave the line counter alone; any other line increments the line
counter.  Incrementing `current_line` while it is still `None` is Python's
`TypeError`, modelled as `.error ()`. -/
def posLoop (t : Int) : List (List Char) → Option Int → Nat → Except Unit (Option Nat)
  | [], _, _ => .ok none
  | l :: rest, cl, cp =>
    match classify l with
    | .header (some n) => posLoop t rest (some ((n : Int) - 1)) 0
    | .header none => posLoop t rest cl cp
    | .added =>
      match cl with
      | none => .error ()
      | some c => if c + 1 = t then .ok (some (cp + 1)) else posLoop t rest (some (c + 1)) (cp + 1)
    | .removed => posLoop t rest cl (cp + 1)
    | .context =>
      match cl with
      | none => .error ()
      | some c => posLoop t rest (some (c + 1)) (cp + 1)

/-- `get_position_in_diff(diff, target_line)` from `code_review.py`:
returns `.ok (some p)` when the target new-file line is found at diff
position `p`, `.ok none` when it is not found, and `.error ()` when the
Python code raises `TypeError` (a `+` or context line before any parsed
hunk header). -/
def get_position_in_diff (diff : List Char) (target_line : Int) : Except Unit (Option Nat) :=
  posLoop target_line (splitOnNewline diff) none 0

/-- True exactly on lines the Python code treats as hunk headers
(`line.startswith("@@")`), whether or not the `+newStart` field parses. -/
def isHunkHeaderLine (l : List Char) : Bool :=
  match l with
  | '@' :: '@' :: _ => true
  | _ => false

/-- Follows the spec's counting convention as amended: the number of
non-header diff lines seen so far, where the counter restarts at `0` at
every hunk header whose `+newStart` field parses and skips hunk-header
lines without counting them. -/
def countSinceReset : List (List Char) → Nat → Nat
  | [], acc => acc
  | l :: rest, acc =>
    match classify l with
    | .header (some _) => countSinceReset rest 0
    | .header none => countSinceReset rest acc
    | _ => countSinceReset rest (acc + 1)

/-- Follows the spec's words: the 0-based document-order index of the first
Added line whose new-file line number (per the hunk-header numbering)
equals the target, or `none`.  The new-file counter starts unset, is set to
`newStart - 1` at each parsed hunk header, is bumped at Added and context
lines, and is left alone at removed lines and unparsed headers.  (The
branch scanning past an Added line while the counter is unset is
unreachable in the correspondence below, since the code raises there.) -/
def firstAddedMatch (t : Int) : List (List Char) → Option Int → Option Nat
  | [], _ => none
  | l :: rest, cl =>
    match classify l with
    | .header (some n) => (firstAddedMatch t rest (some ((n : Int) - 1))).map (· + 1)
    | .header none => (firstAddedMatch t rest cl).map (· + 1)
    | .added =>
      match cl with
      | none => (firstAddedMatch t rest none).map (· + 1)
      | some c =>
        if c + 1 = t then some 0
        else (firstAddedMatch t rest (some (c + 1))).map (· + 1)
    | .removed => (firstAddedMatch t rest cl).map (· + 1)
    | .context => (firstAddedMatch t rest (cl.map (· + 1))).map (· + 1)

/-- Follows the spec as amended: the position of a resolvable target is the
1-based count of non-header diff lines emitted since the most recent parsed
hunk header, taken at the first matching Added line. -/
def specPositionSinceLastHeader (t : Int) (ls : List (List Char)) : Option Nat :=
  (firstAddedMatch t ls none).map (fun k => countSinceReset (ls.take (k + 1)) 0)

/-- Follows the claim's words (C1 as frozen): the position of a resolvable
target is the 1-based count of non-header diff lines emitted since the
START of the file's diff, accumulated across all hunks and never reset. -/
def specCumulativePosition (t : Int) (ls : List (List Char)) : Option Nat :=
  (firstAddedMatch t ls none).map
    (fun k => ((ls.take (k + 1)).filter (fun l => !isHunkHeaderLine l)).length)

/-- Follows the claim's words (C2 as frozen): the resolver as the spec
describes it, where context lines are matched against the target exactly
the way Added lines are. -/
def acLoop (t : Int) : List (List Char) → Option Int → Nat → Except Unit (Option Nat)
  | [], _, _ => .ok none
  | l :: rest, cl, cp =>
    match classify l with
    | .header (some n) => acLoop t rest (some ((n : Int) - 1)) 0
    | .header none => acLoop t rest cl cp
    | .added =>
      match cl with
      | none => .error ()
      | some c => if c + 1 = t then .ok (some (cp + 1)) else acLoop t rest (some (c + 1)) (cp + 1)
    | .removed => acLoop t rest cl (cp + 1)
    | .context =>
      match cl with
      | none => .error ()
      | some c => if c + 1 = t then .ok (some (cp + 1)) else acLoop t rest (some (c + 1)) (cp + 1)

/-- The claim-side resolver of C2 on a whole diff text. -/
def spec_position_added_or_context (diff : List Char) (t : Int) : Except Unit (Option Nat) :=
  acLoop t (splitOnNewline diff) none 0

/-- Core correspondence: the resolver loop either raises or returns exactly
the per-hunk count at the first matching Added line. -/
lemma posLoop_spec (t : Int) (ls : List (List Char)) : ∀ (cl : Option Int) (cp : Nat),
    posLoop t ls cl cp = .error () ∨
    posLoop t ls cl cp =
      .ok ((firstAddedMatch t ls cl).map (fun k => countSinceReset (ls.take (k + 1)) cp)) := by
  induction ls with
  | nil => intro cl cp; right; simp [posLoop, firstAddedMatch]
  | cons l rest ih =>
    intro cl cp
    cases hc : classify l with
    | header n =>
      cases n with
      | some m =>
        rcases ih (some ((m : Int) - 1)) 0 with h | h
        · left; simp only [posLoop, hc]; exact h
        · right
          simp only [posLoop, hc]
          rw [h]
          cases hf : firstAddedMatch t rest (some ((m : Int) - 1)) with
          | none => simp [firstAddedMatch, hc, hf]
          | some k => simp [firstAddedMatch, hc, hf, List.take_succ_cons, countSinceReset]
      | none =>
        rcases ih cl cp with h | h
        · left; simp only [posLoop, hc]; exact h
        · right
          simp only [posLoop, hc]
          rw [h]
          cases hf : firstAddedMatch t rest cl with
          | none => simp [firstAddedMatch, hc, hf]
          | some k => simp [firstAddedMatch, hc, hf, List.take_succ_cons, countSinceReset]
    | added =>
      cases cl with
      | none => left; simp [posLoop, hc]
      | some c =>
        by_cases ht : c + 1 = t
        · right
          simp [posLoop, hc, ht, firstAddedMatch, List.take_succ_cons, countSinceReset]
        · rcases ih (some (c + 1)) (cp + 1) with h | h
          · left; simp only [posLoop, hc]; rw [if_neg ht]; exact h
          · right
            simp only [posLoop, hc]
            rw [if_neg ht, h]
            cases hf : firstAddedMatch t rest (some (c + 1)) with
            | none => simp [firstAddedMatch, hc, hf, ht]
            | some k => simp [firstAddedMatch, hc, hf, ht, List.take_succ_cons, countSinceReset]
    | removed =>
      rcases ih cl (cp + 1) with h | h
      · left; simp only [posLoop, hc]; exact h
      · right
        simp only [posLoop, hc]
        rw [h]
        cases hf : firstAddedMatch t rest cl with
        | none => simp [firstAddedMatch, hc, hf]
        | some k => simp [firstAddedMatch, hc, hf, List.take_succ_cons, countSinceReset]
    | context =>
      cases cl with
      | none => left; simp [posLoop, hc]
      | some c =>
        rcases ih (some (c + 1)) (cp + 1) with h | h
        · left; simp only [posLoop, hc]; exact h
        · right
          simp only [posLoop, hc]
          rw [h]
          cases hf : firstAddedMatch t rest (some (c + 1)) with
          | none => simp [firstAddedMatch, hc, hf]
          | some k => simp [firstAddedMatch, hc, hf, List.take_succ_cons, countSinceReset]

/-- C1 (amended): for every file diff and target line, the position
returned by `get_position_in_diff` is the 1-based count of non-header diff
lines emitted since the most recent hunk header whose `+newStart` field
parses — the counter resets at every parsed hunk header instead of
accumulating across the whole file — taken at the first matching Added
line; otherwise the code raises. -/
theorem position_counts_since_last_hunk_header (diff : List Char) (t : Int) :
    get_position_in_diff diff t = .error () ∨
    get_position_in_diff diff t = .ok (specPositionSinceLastHeader t (splitOnNewline diff)) :=
  posLoop_spec t (splitOnNewline diff) none 0

/-- C1 (counterexample): on a two-hunk diff the code returns position 1 for
the added line of the second hunk, while the claim's cumulative count over
the whole file's diff body is 2. -/
theorem position_resets_cex :
    get_position_in_diff ("@@ -1 +1 @@\n+a\n@@ -5 +5 @@\n+b".toList) 5 = .ok (some 1) ∧
    specCumulativePosition 5 (splitOnNewline ("@@ -1 +1 @@\n+a\n@@ -5 +5 @@\n+b".toList)) =
      some 2 ∧ (1 : Nat) ≠ 2 :=
  ⟨rfl, rfl, by decide⟩

/-- C2 (amended): context lines are never matched — `get_position_in_diff`
returns a position exactly when some Added line's new-file line number
equals the target, and the first such Added line in document order wins;
a target present only as a context line yields absent. -/
theorem only_added_lines_match (diff : List Char) (t : Int) :
    get_position_in_diff diff t = .error () ∨
    (get_position_in_diff diff t = .ok none ∧
      firstAddedMatch t (splitOnNewline diff) none = none) ∨
    (∃ k p, firstAddedMatch t (splitOnNewline diff) none = some k ∧
      get_position_in_diff diff t = .ok (some p)) := by
  rcases posLoop_spec t (splitOnNewline diff) none 0 with h | h
  · left; exact h
  · cases hf : firstAddedMatch t (splitOnNewline diff) none with
    | none =>
      right; left
      refine ⟨?_, rfl⟩
      rw [show get_position_in_diff diff t = posLoop t (splitOnNewline diff) none 0 from rfl, h, hf]
      rfl
    | some k =>
      right; right
      refine ⟨k, countSinceReset ((splitOnNewline diff).take (k + 1)) 0, rfl, ?_⟩
      rw [show get_position_in_diff diff t = posLoop t (splitOnNewline diff) none 0 from rfl, h, hf]
      rfl

/-- C2 (counterexample): the target 1 is the new-file line of the emitted
context line ` x` (its position under the claim's Added-or-Context
convention is 1), yet the code returns absent. -/
theorem context_match_cex :
    get_position_in_diff ("@@ -1,2 +1,2 @@\n x\n+y".toList) 1 = .ok none ∧
    spec_position_added_or_context ("@@ -1,2 +1,2 @@\n x\n+y".toList) 1 = .ok (some 1) :=
  ⟨rfl, rfl⟩

/-- Number of hunk-header lines whose `+newStart` field parses (the only
lines at which `get_position_in_diff` resets its counters). -/
def hunkHeaderCount : List (List Char) → Nat
  | [] => 0
  | l :: rest =>
    (match classify l with
     | .header (some _) => 1
     | _ => 0) + hunkHeaderCount rest

/-- With no parsed hunk header left, the position counter never resets, so
any returned position strictly exceeds the counter value on entry. -/
lemma posLoop_pos_lt (t : Int) (ls : List (List Char)) : ∀ (c : Int) (cp q : Nat),
    hunkHeaderCount ls = 0 → posLoop t ls (some c) cp = .ok (some q) → cp < q := by
  induction ls with
  | nil => intro c cp q _ h; simp [posLoop] at h
  | cons l rest ih =>
    intro c cp q hcount h
    cases hc : classify l with
    | header n =>
      cases n with
      | some m => simp [hunkHeaderCount, hc] at hcount
      | none =>
        simp only [posLoop, hc] at h
        simp only [hunkHeaderCount, hc, Nat.zero_add] at hcount
        exact ih c cp q hcount h
    | added =>
      simp only [posLoop, hc] at h
      simp only [hunkHeaderCount, hc, Nat.zero_add] at hcount
      by_cases ht : c + 1 = t
      · rw [if_pos ht] at h
        have : cp + 1 = q := by
          have := h
          simp at this
          omega
        omega
      · rw [if_neg ht] at h
        have := ih (c + 1) (cp + 1) q hcount h
        omega
    | removed =>
      simp only [posLoop, hc] at h
      simp only [hunkHeaderCount, hc, Nat.zero_add] at hcount
      have := ih c (cp + 1) q hcount h
      omega
    | context =>
      simp only [posLoop, hc] at h
      simp only [hunkHeaderCount, hc, Nat.zero_add] at hcount
      have := ih (c + 1) (cp + 1) q hcount h
      omega

/-- With the line counter set and no parsed hunk header left, two targets
resolving to the same position must be equal. -/
lemma posLoop_inj_nohdr (t₁ t₂ : Int) (ls : List (List Char)) : ∀ (c : Int) (cp p : Nat),
    hunkHeaderCount ls = 0 →
    posLoop t₁ ls (some c) cp = .ok (some p) →
    posLoop t₂ ls (some c) cp = .ok (some p) → t₁ = t₂ := by
  induction ls with
  | nil => intro c cp p _ h₁ _; simp [posLoop] at h₁
  | cons l rest ih =>
    intro c cp p hcount h₁ h₂
    cases hc : classify l with
    | header n =>
      cases n with
      | some m => simp [hunkHeaderCount, hc] at hcount
      | none =>
        simp only [posLoop, hc] at h₁ h₂
        simp only [hunkHeaderCount, hc, Nat.zero_add] at hcount
        exact ih c cp p hcount h₁ h₂
    | added =>
      simp only [posLoop, hc] at h₁ h₂
      simp only [hunkHeaderCount, hc, Nat.zero_add] at hcount
      by_cases ht₁ : c + 1 = t₁
      · by_cases ht₂ : c + 1 = t₂
        · omega
        · rw [if_pos ht₁] at h₁
          rw [if_neg ht₂] at h₂
          have hp : cp + 1 = p := by simp at h₁; omega
          have := posLoop_pos_lt t₂ rest (c + 1) (cp + 1) p hcount h₂
          omega
      · by_cases ht₂ : c + 1 = t₂
        · rw [if_neg ht₁] at h₁
          rw [if_pos ht₂] at h₂
          have hp : cp + 1 = p := by simp at h₂; omega
          have := posLoop_pos_lt t₁ rest (c + 1) (cp + 1) p hcount h₁
          omega
        · rw [if_neg ht₁] at h₁
          rw [if_neg ht₂] at h₂
          exact ih (c + 1) (cp + 1) p hcount h₁ h₂
    | removed =>
      simp only [posLoop, hc] at h₁ h₂
      simp only [hunkHeaderCount, hc, Nat.zero_add] at hcount
      exact ih c (cp + 1) p hcount h₁ h₂
    | context =>
      simp only [posLoop, hc] at h₁ h₂
      simp only [hunkHeaderCount, hc, Nat.zero_add] at hcount
      exact ih (c + 1) (cp + 1) p hcount h₁ h₂

/-- Before any parsed hunk header the loop can only return a position after
passing the unique header, so injectivity with at most one parsed header
reduces to `posLoop_inj_nohdr`. -/
lemma posLoop_inj_pre (t₁ t₂ : Int) (ls : List (List Char)) : ∀ (cp p : Nat),
    hunkHeaderCount ls ≤ 1 →
    posLoop t₁ ls none cp = .ok (some p) →
    posLoop t₂ ls none cp = .ok (some p) → t₁ = t₂ := by
  induction ls with
  | nil => intro cp p _ h₁ _; simp [posLoop] at h₁
  | cons l rest ih =>
    intro cp p hcount h₁ h₂
    cases hc : classify l with
    | header n =>
      cases n with
      | some m =>
        simp only [posLoop, hc] at h₁ h₂
        have hrest : hunkHeaderCount rest = 0 := by
          simp only [hunkHeaderCount, hc] at hcount; omega
        exact posLoop_inj_nohdr t₁ t₂ rest ((m : Int) - 1) 0 p hrest h₁ h₂
      | none =>
        simp only [posLoop, hc] at h₁ h₂
        simp only [hunkHeaderCount, hc, Nat.zero_add] at hcount
        exact ih cp p hcount h₁ h₂
    | added => simp [posLoop, hc] at h₁
    | removed =>
      simp only [posLoop, hc] at h₁ h₂
      simp only [hunkHeaderCount, hc, Nat.zero_add] at hcount
      exact ih (cp + 1) p hcount h₁ h₂
    | context => simp [posLoop, hc] at h₁

/-- C3 (amended): `get_position_in_diff` is injective on resolvable targets
provided the file's diff contains at most one parsed hunk header; with
several hunks the per-hunk reset of the position counter can map lines of
different hunks to the same position. -/
theorem single_hunk_injective (diff : List Char) (t₁ t₂ : Int) (p : Nat)
    (hcount : hunkHeaderCount (splitOnNewline diff) ≤ 1)
    (h₁ : get_position_in_diff diff t₁ = .ok (some p))
    (h₂ : get_position_in_diff diff t₂ = .ok (some p)) : t₁ = t₂ :=
  posLoop_inj_pre t₁ t₂ (splitOnNewline diff) 0 p hcount h₁ h₂

/-- C3 (witness): the single-hunk injectivity theorem applied at a concrete
one-hunk diff. -/
theorem single_hunk_injective_check : (1 : Int) = 1 :=
  single_hunk_injective ("@@ -1 +1 @@\n+a\n+b".toList) 1 1 1 (by decide) rfl rfl

/-- C3 (counterexample): in a two-hunk diff the distinct resolvable targets
1 and 5 both map to position 1, because the counter resets at the second
hunk header. -/
theorem injectivity_cex :
    get_position_in_diff ("@@ -1 +1 @@\n+a\n@@ -5 +5 @@\n+b".toList) 1 = .ok (some 1) ∧
    get_position_in_diff ("@@ -1 +1 @@\n+a\n@@ -5 +5 @@\n+b".toList) 5 = .ok (some 1) ∧
    (1 : Int) ≠ 5 :=
  ⟨rfl, rfl, by decide⟩

/-- True when every Added or context line of the diff comes after some
parsed hunk header (the `seen` flag records whether one was passed);
removed lines and header lines are unconstrained.  This is exactly the
condition under which `get_position_in_diff` cannot raise. -/
def hunkHeaderFirst : List (List Char) → Bool → Bool
  | [], _ => true
  | l :: rest, seen =>
    match classify l with
    | .header (some _) => hunkHeaderFirst rest true
    | .header none => hunkHeaderFirst rest seen
    | .removed => hunkHeaderFirst rest seen
    | _ => seen && hunkHeaderFirst rest seen

/-- Once the line counter is set it stays set, so the loop never raises. -/
lemma posLoop_some_ne_error (t : Int) (ls : List (List Char)) : ∀ (c : Int) (cp : Nat),
    posLoop t ls (some c) cp ≠ .error () := by
  induction ls with
  | nil => intro c cp; simp [posLoop]
  | cons l rest ih =>
    intro c cp
    cases hc : classify l with
    | header n =>
      cases n with
      | some m => simp only [posLoop, hc]; exact ih _ _
      | none => simp only [posLoop, hc]; exact ih _ _
    | added =>
      simp only [posLoop, hc]
      by_cases ht : c + 1 = t
      · rw [if_pos ht]; simp
      · rw [if_neg ht]; exact ih _ _
    | removed => simp only [posLoop, hc]; exact ih _ _
    | context => simp only [posLoop, hc]; exact ih _ _

/-- The loop with an unset counter never raises as long as every Added or
context line is preceded by a parsed hunk header. -/
lemma posLoop_none_ne_error (t : Int) (ls : List (List Char)) : ∀ (cp : Nat),
    hunkHeaderFirst ls false = true → posLoop t ls none cp ≠ .error () := by
  induction ls with
  | nil => intro cp _; simp [posLoop]
  | cons l rest ih =>
    intro cp hwf
    cases hc : classify l with
    | header n =>
      cases n with
      | some m => simp only [posLoop, hc]; exact posLoop_some_ne_error t rest _ _
      | none =>
        simp only [posLoop, hc]
        simp only [hunkHeaderFirst, hc] at hwf
        exact ih _ hwf
    | added =>
      simp only [hunkHeaderFirst, hc, Bool.false_and] at hwf
      exact absurd hwf (by decide)
    | removed =>
      simp only [posLoop, hc]
      simp only [hunkHeaderFirst, hc] at hwf
      exact ih _ hwf
    | context =>
      simp only [hunkHeaderFirst, hc, Bool.false_and] at hwf
      exact absurd hwf (by decide)

/-- C5 (amended): `get_position_in_diff` terminates and returns a position
or absent without raising for every diff text in which each Added or
context line is preceded by a hunk header whose `+newStart` field parses;
texts with only removed lines or malformed headers before the first parsed
header are also safe.  (An Added or context line before any parsed hunk
header instead makes the Python code raise `TypeError`, as the
counterexample shows.) -/
theorem no_error_after_header (diff : List Char) (t : Int)
    (hwf : hunkHeaderFirst (splitOnNewline diff) false = true) :
    get_position_in_diff diff t ≠ .error () :=
  posLoop_none_ne_error t (splitOnNewline diff) 0 hwf

/-- C5 (witness): the no-raise theorem applied at a concrete well-formed
diff and an unresolvable target. -/
theorem no_error_after_header_check :
    get_position_in_diff ("@@ -1 +1 @@\n+a".toList) 2 ≠ .error () :=
  no_error_after_header ("@@ -1 +1 @@\n+a".toList) 2 (by decide)

/-- C5 (counterexample): an added line before any hunk header makes
`get_position_in_diff` increment `current_line` while it is still `None`,
raising `TypeError` — the claim promised no exception for such inputs. -/
theorem position_raises_cex : get_position_in_diff ("+x".toList) 1 = .error () := rfl

/-- The new-file line numbers the resolver's scan assigns to Added lines:
exactly the targets that an Added line can ever match.  Counter evolution
mirrors `get_position_in_diff`; in the region where the counter is unset
(where the code would raise) no number is recorded. -/
def addedNewLines : List (List Char) → Option Int → List Int
  | [], _ => []
  | l :: rest, cl =>
    match classify l with
    | .header (some n) => addedNewLines rest (some ((n : Int) - 1))
    | .header none => addedNewLines rest cl
    | .added =>
      match cl with
      | none => addedNewLines rest none
      | some c => (c + 1) :: addedNewLines rest (some (c + 1))
    | .removed => addedNewLines rest cl
    | .context => addedNewLines rest (cl.map (· + 1))

/-- A returned position always comes from an Added line whose assigned
new-file number is the target. -/
lemma posLoop_mem_added (t : Int) (ls : List (List Char)) : ∀ (cl : Option Int) (cp p : Nat),
    posLoop t ls cl cp = .ok (some p) → t ∈ addedNewLines ls cl := by
  induction ls with
  | nil => intro cl cp p h; simp [posLoop] at h
  | cons l rest ih =>
    intro cl cp p h
    cases hc : classify l with
    | header n =>
      cases n with
      | some m =>
        simp only [posLoop, hc] at h
        simp only [addedNewLines, hc]
        exact ih _ _ _ h
      | none =>
        simp only [posLoop, hc] at h
        simp only [addedNewLines, hc]
        exact ih _ _ _ h
    | added =>
      cases cl with
      | none => simp [posLoop, hc] at h
      | some c =>
        simp only [posLoop, hc] at h
        simp only [addedNewLines, hc]
        by_cases ht : c + 1 = t
        · rw [ht]; exact List.mem_cons_self _ _
        · rw [if_neg ht] at h
          exact List.mem_cons_of_mem _ (ih _ _ _ h)
    | removed =>
      simp only [posLoop, hc] at h
      simp only [addedNewLines, hc]
      exact ih _ _ _ h
    | context =>
      cases cl with
      | none => simp [posLoop, hc] at h
      | some c =>
        simp only [posLoop, hc] at h
        simp only [addedNewLines, hc, Option.map_some]
        exact ih _ _ _ h

/-- One model comment as parsed from the LLM response: a file name, the
model-reported line number, and the comment body. -/
structure ReviewComment where
  filename : List Char
  line : Int
  body : List Char

/-- The filtering core of `post_comments`: for each comment, look up the
file's diff (`diffs.get(filename)`, modelled as a lookup function), skip
the comment when there is no diff, compute the position, skip the comment
when the position is `None`, and otherwise send the
`(path, position, body)` triple to the sink.  Returns the list of triples
actually sent; a `TypeError` escaping `get_position_in_diff` aborts the
whole loop, which `.error ()` models. -/
def post_comments (comments : List ReviewComment) (diffs : List Char → Option (List Char)) :
    Except Unit (List (List Char × Nat × List Char)) :=
  match comments with
  | [] => .ok []
  | c :: rest =>
    match diffs c.filename with
    | none => post_comments rest diffs
    | some d =>
      match get_position_in_diff d c.line with
      | .error e => .error e
      | .ok none => post_comments rest diffs
      | .ok (some p) => (post_comments rest diffs).map (fun l => (c.filename, p, c.body) :: l)

/-- C4 (amended): a comment whose target line is not the new-file number
of any Added line of the file's diff (in particular one only present as a
removed line, or absent) gets no position — `get_position_in_diff` yields
absent, or raises the C5 `TypeError` on a diff with an added/context line
before any parsed hunk header — and in both cases `post_comments` never
sends it to the sink: it drops the comment on absent and aborts without
sending on the exception. -/
theorem unresolvable_comment_dropped (c : ReviewComment)
    (diffs : List Char → Option (List Char)) (d : List Char)
    (hd : diffs c.filename = some d)
    (hne : c.line ∉ addedNewLines (splitOnNewline d) none) :
    (get_position_in_diff d c.line = .ok none ∨ get_position_in_diff d c.line = .error ()) ∧
    (post_comments [c] diffs = .ok [] ∨ post_comments [c] diffs = .error ()) := by
  have hpos : ∀ p : Nat, get_position_in_diff d c.line ≠ .ok (some p) := by
    intro p h
    exact hne (posLoop_mem_added c.line (splitOnNewline d) none 0 p h)
  cases h : get_position_in_diff d c.line with
  | error e =>
    cases e
    refine ⟨Or.inr rfl, Or.inr ?_⟩
    simp only [post_comments, hd, h]
  | ok v =>
    cases v with
    | none =>
      refine ⟨Or.inl rfl, Or.inl ?_⟩
      simp only [post_comments, hd, h]
    | some p => exact absurd h (hpos p)

/-- C4 (witness): a comment aimed at a line only present as a removed line
of a concrete diff is resolved to absent and dropped by `post_comments`. -/
theorem unresolvable_comment_dropped_check :
    (get_position_in_diff ("@@ -1,2 +1,1 @@\n-x\n y".toList) 2 = .ok none ∨
      get_position_in_diff ("@@ -1,2 +1,1 @@\n-x\n y".toList) 2 = .error ()) ∧
    (post_comments [⟨"a.py".toList, 2, "msg".toList⟩]
        (fun f => if f = "a.py".toList then some ("@@ -1,2 +1,1 @@\n-x\n y".toList) else none) =
      .ok [] ∨
     post_comments [⟨"a.py".toList, 2, "msg".toList⟩]
        (fun f => if f = "a.py".toList then some ("@@ -1,2 +1,1 @@\n-x\n y".toList) else none) =
      .error ()) :=
  unresolvable_comment_dropped ⟨"a.py".toList, 2, "msg".toList⟩
    (fun f => if f = "a.py".toList then some ("@@ -1,2 +1,1 @@\n-x\n y".toList) else none)
    ("@@ -1,2 +1,1 @@\n-x\n y".toList) (by decide) (by decide)

/-- C4 (counterexample): on a header-less fragment whose target line is not
present at all (no line number is ever assigned, and no Added line exists),
`get_position_in_diff` raises the `TypeError` of C5 instead of returning
absent, refuting the claim that such a comment always yields absent. -/
theorem dropped_comment_raises_cex :
    addedNewLines (splitOnNewline (" c".toList)) none = [] ∧
    get_position_in_diff (" c".toList) 7 = .error () :=
  ⟨rfl, rfl⟩

/-- Concatenation of a list of character lists (Python string `+=` over a
loop). -/
def concatAll : List (List Char) → List Char
  | [] => []
  | l :: ls => l ++ concatAll ls

/-- `splitOnNewline` never returns the empty list (Python `split` always
yields at least one piece). -/
lemma splitOnNewline_ne_nil : ∀ s : List Char, splitOnNewline s ≠ [] := by
  intro s
  cases s with
  | nil => simp [splitOnNewline]
  | cons c rest =>
    cases h : splitOnNewline rest with
    | nil => simp [splitOnNewline, h]
    | cons l ls =>
      simp only [splitOnNewline, h]
      by_cases hc : c = '\n'
      · rw [if_pos hc]; simp
      · rw [if_neg hc]; simp

/-- Re-joining the split lines with a newline after each reproduces the
text plus one trailing newline. -/
lemma splitOnNewline_join : ∀ s : List Char,
    concatAll ((splitOnNewline s).map (· ++ ['\n'])) = s ++ ['\n'] := by
  intro s
  induction s with
  | nil => rfl
  | cons c rest ih =>
    cases hsp : splitOnNewline rest with
    | nil => exact absurd hsp (splitOnNewline_ne_nil rest)
    | cons l ls =>
      rw [hsp] at ih
      simp only [List.map_cons, concatAll] at ih
      by_cases hc : c = '\n'
      · subst hc
        simp only [splitOnNewline, hsp, if_pos rfl, List.map_cons, concatAll]
        simp [ih]
      · simp only [splitOnNewline, hsp, if_neg hc, List.map_cons, concatAll]
        simp only [List.cons_append, List.append_assoc] at ih ⊢
        rw [ih]

/-- The loop of `split_diff_into_chunks`: accumulate lines into
`current_chunk`; before appending a line, if the token count of
`current_chunk + line` exceeds the budget, seal the current chunk and start
a new one with that line; after the loop the final partial chunk is always
appended.  The external tokenizer (`num_tokens_from_string`) is the
parameter `tokens`. -/
def chunkLoop (tokens : List Char → Nat) (maxTokens : Int) :
    List (List Char) → List Char → List (List Char)
  | [], current => [current]
  | line :: rest, current =>
    if (tokens (current ++ line) : Int) > maxTokens then
      current :: chunkLoop tokens maxTokens rest (line ++ ['\n'])
    else
      chunkLoop tokens maxTokens rest (current ++ line ++ ['\n'])

/-- `split_diff_into_chunks(diff_content, max_tokens)` from
`code_review.py`, with the tokenizer as a parameter. -/
def split_diff_into_chunks (tokens : List Char → Nat) (diff : List Char) (maxTokens : Int) :
    List (List Char) :=
  chunkLoop tokens maxTokens (splitOnNewline diff) []

/-- Concatenating the chunks yields the accumulator followed by every
remaining line with its newline re-inserted. -/
lemma chunkLoop_concat (tokens : List Char → Nat) (maxT : Int) :
    ∀ (ls : List (List Char)) (cur : List Char),
      concatAll (chunkLoop tokens maxT ls cur) = cur ++ concatAll (ls.map (· ++ ['\n'])) := by
  intro ls
  induction ls with
  | nil => intro cur; simp [chunkLoop, concatAll]
  | cons line rest ih =>
    intro cur
    simp only [chunkLoop]
    by_cases htk : (tokens (cur ++ line) : Int) > maxT
    · rw [if_pos htk]
      simp only [concatAll, ih, List.map_cons, List.append_assoc]
    · rw [if_neg htk]
      simp only [ih, List.map_cons, concatAll, List.append_assoc]

/-- The chunk list is never empty: the final partial chunk is appended. -/
lemma chunkLoop_ne_nil (tokens : List Char → Nat) (maxT : Int) :
    ∀ (ls : List (List Char)) (cur : List Char), chunkLoop tokens maxT ls cur ≠ [] := by
  intro ls
  induction ls with
  | nil => intro cur; simp [chunkLoop]
  | cons line rest ih =>
    intro cur
    simp only [chunkLoop]
    by_cases htk : (tokens (cur ++ line) : Int) > maxT
    · rw [if_pos htk]; simp
    · rw [if_neg htk]; exact ih _

/-- C7: concatenating the chunks of `split_diff_into_chunks`, in order,
reproduces the input text up to the re-inserted line breaks (each input
line appears exactly once, with a newline after it, the last line
included), and the final partial chunk is always appended, so the chunk
list is never empty. -/
theorem chunks_reconstruct (tokens : List Char → Nat) (maxT : Int) (diff : List Char) :
    concatAll (split_diff_into_chunks tokens diff maxT) = diff ++ ['\n'] ∧
    split_diff_into_chunks tokens diff maxT ≠ [] := by
  constructor
  · rw [show split_diff_into_chunks tokens diff maxT =
        chunkLoop tokens maxT (splitOnNewline diff) [] from rfl,
      chunkLoop_concat, List.nil_append, splitOnNewline_join]
  · exact chunkLoop_ne_nil tokens maxT _ _

/-- Every chunk produced from a non-empty accumulator is non-empty. -/
lemma chunkLoop_all_ne_nil (tokens : List Char → Nat) (maxT : Int) :
    ∀ (ls : List (List Char)) (cur : List Char), cur ≠ [] →
      [] ∉ chunkLoop tokens maxT ls cur := by
  intro ls
  induction ls with
  | nil => intro cur hcur; simp [chunkLoop]; exact fun h => hcur h
  | cons line rest ih =>
    intro cur hcur
    simp only [chunkLoop]
    by_cases htk : (tokens (cur ++ line) : Int) > maxT
    · rw [if_pos htk]
      intro hmem
      rcases List.mem_cons.mp hmem with h | h
      · exact hcur h.symm
      · exact ih (line ++ ['\n']) (by simp) h
    · rw [if_neg htk]
      exact ih (cur ++ line ++ ['\n']) (by simp) ∘ id

/-- Only the very first chunk can be empty. -/
lemma chunkLoop_tail_ne_nil (tokens : List Char → Nat) (maxT : Int) :
    ∀ (ls : List (List Char)) (cur : List Char), [] ∉ (chunkLoop tokens maxT ls cur).tail := by
  intro ls
  induction ls with
  | nil => intro cur; simp [chunkLoop]
  | cons line rest ih =>
    intro cur
    simp only [chunkLoop]
    by_cases htk : (tokens (cur ++ line) : Int) > maxT
    · rw [if_pos htk]
      simp only [List.tail_cons]
      exact chunkLoop_all_ne_nil tokens maxT rest (line ++ ['\n']) (by simp)
    · rw [if_neg htk]
      exact ih _

/-- From a non-empty accumulator, the head chunk is never empty. -/
lemma chunkLoop_head_ne_nil (tokens : List Char → Nat) (maxT : Int) :
    ∀ (ls : List (List Char)) (cur : List Char), cur ≠ [] →
      (chunkLoop tokens maxT ls cur).head? ≠ some [] := by
  intro ls
  induction ls with
  | nil =>
    intro cur hcur
    simp only [chunkLoop, List.head?_cons, ne_eq, Option.some_inj]
    exact fun h => hcur h
  | cons line rest ih =>
    intro cur hcur
    simp only [chunkLoop]
    by_cases htk : (tokens (cur ++ line) : Int) > maxT
    · rw [if_pos htk]
      simp only [List.head?_cons, ne_eq, Option.some_inj]
      exact fun h => hcur h
    · rw [if_neg htk]
      exact ih (cur ++ line ++ ['\n']) (by simp)

/-- C8 (amended): `split_diff_into_chunks` never emits an empty chunk after
the first; a line alone exceeding the budget still becomes the start of its
own chunk, but when that happens on the very first line the empty initial
accumulator is sealed before it — the head chunk is empty exactly when the
first line alone exceeds the token budget. -/
theorem chunk_empties (tokens : List Char → Nat) (maxT : Int) (diff : List Char)
    (l₀ : List Char) (ls : List (List Char)) (h : splitOnNewline diff = l₀ :: ls) :
    ([] ∉ (split_diff_into_chunks tokens diff maxT).tail) ∧
    ((split_diff_into_chunks tokens diff maxT).head? = some [] ↔ (tokens l₀ : Int) > maxT) := by
  rw [show split_diff_into_chunks tokens diff maxT =
      chunkLoop tokens maxT (splitOnNewline diff) [] from rfl, h]
  refine ⟨chunkLoop_tail_ne_nil tokens maxT _ _, ?_⟩
  simp only [chunkLoop, List.nil_append]
  by_cases htk : (tokens l₀ : Int) > maxT
  · rw [if_pos htk]
    simp [htk]
  · rw [if_neg htk]
    constructor
    · intro hh
      exact absurd hh (chunkLoop_head_ne_nil tokens maxT ls (l₀ ++ ['\n']) (by simp))
    · intro hh; exact absurd hh htk

/-- C8 (witness): the head-chunk characterization applied at a concrete
text whose single line exceeds the budget under a length tokenizer. -/
theorem chunk_empties_check :
    (split_diff_into_chunks (fun l => l.length) ("ab".toList) 1).head? = some [] :=
  (chunk_empties (fun l => l.length) 1 ("ab".toList) ('a' :: 'b' :: []) [] rfl).2.mpr (by decide)

/-- C8 (counterexample): with the first line alone over the budget, the
code seals the empty initial accumulator, so an empty chunk is emitted —
refuting the claim that no empty chunk is ever emitted. -/
theorem empty_chunk_cex :
    [] ∈ split_diff_into_chunks (fun l => l.length) ("ab".toList) 1 := by decide

/-- Python `f"\x7bcurrent_line:4d\x7d"`: the decimal rendering of the
number right-aligned in a field of width 4 (wider numbers keep their full
width). -/
def formatLineNumber (n : Int) : List Char :=
  List.replicate (4 - (toString n).toList.length) ' ' ++ (toString n).toList

/-- Renders one numbered diff line: numbered lines as
`f"\x7bcurrent_line:4d\x7d | \x7bline\x7d"`, unnumbered lines as-is. -/
def renderNumbered : Option Int × List Char → List Char
  | (some n, l) => formatLineNumber n ++ [' ', '|', ' '] ++ l
  | (none, l) => l

/-- The line-numbering pass of `review_code_with_llm`, with a counter
starting at 0: a parsed hunk header resets it to `newStart - 1` and the
header is emitted unnumbered; a `+` line bumps the counter and is numbered;
a `-` line is emitted unnumbered without touching the counter; any other
line bumps the counter and is numbered.  Each output pair carries the
assigned number (if any) and the raw line. -/
def numberLoop : List (List Char) → Int → List (Option Int × List Char)
  | [], _ => []
  | l :: rest, c =>
    match classify l with
    | .header (some n) => (none, l) :: numberLoop rest ((n : Int) - 1)
    | .header none => (none, l) :: numberLoop rest c
    | .added => (some (c + 1), l) :: numberLoop rest (c + 1)
    | .removed => (none, l) :: numberLoop rest c
    | .context => (some (c + 1), l) :: numberLoop rest (c + 1)

/-- The numbered diff lines exactly as `review_code_with_llm` builds them
before joining with newlines. -/
def numbered_diff_lines (diff : List Char) : List (List Char) :=
  (numberLoop (splitOnNewline diff) 0).map renderNumbered

/-- Follows the spec's words: the counter transition of the numbering pass
for one line — reset to `newStart - 1` at a parsed hunk header, unchanged
at an unparsed header or a removed line, incremented at added and context
lines. -/
def hunkStep (l : List Char) (c : Int) : Int :=
  match classify l with
  | .header (some n) => (n : Int) - 1
  | .header none => c
  | .added => c + 1
  | .removed => c
  | .context => c + 1

/-- The stream of counter values after each line, per `hunkStep`. -/
def counterStream : List (List Char) → Int → List Int
  | [], _ => []
  | l :: rest, c => hunkStep l c :: counterStream rest (hunkStep l c)

/-- Lines that receive a number: added and context lines. -/
def isNumberedKind (l : List Char) : Bool :=
  match classify l with
  | .added => true
  | .context => true
  | _ => false

/-- Follows the spec's words: each added or context line is assigned the
counter value reached after incrementing at that line; headers and removed
lines are assigned nothing. -/
def specAssigned (ls : List (List Char)) (c : Int) : List (Option Int) :=
  (ls.zip (counterStream ls c)).map (fun p => if isNumberedKind p.1 then some p.2 else none)

/-- One step of the spec-side assignment. -/
lemma specAssigned_cons (l : List Char) (rest : List (List Char)) (c : Int) :
    specAssigned (l :: rest) c =
      (if isNumberedKind l then some (hunkStep l c) else none) ::
        specAssigned rest (hunkStep l c) := by
  simp [specAssigned, counterStream]

/-- The numbering pass computes exactly the spec-side assignment. -/
lemma numberLoop_spec : ∀ (ls : List (List Char)) (c : Int),
    (numberLoop ls c).map Prod.fst = specAssigned ls c := by
  intro ls
  induction ls with
  | nil => intro c; simp [numberLoop, specAssigned, counterStream]
  | cons l rest ih =>
    intro c
    rw [specAssigned_cons]
    cases hc : classify l with
    | header n =>
      cases n with
      | some m => simp [numberLoop, hc, isNumberedKind, hunkStep, ih]
      | none => simp [numberLoop, hc, isNumberedKind, hunkStep, ih]
    | added => simp [numberLoop, hc, isNumberedKind, hunkStep, ih]
    | removed => simp [numberLoop, hc, isNumberedKind, hunkStep, ih]
    | context => simp [numberLoop, hc, isNumberedKind, hunkStep, ih]

/-- C6: on every diff text, the numbering pass of `review_code_with_llm`
assigns new-file numbers exactly per the spec: the running counter resets
to `newStart - 1` at each hunk header whose `+newStart[,newCount]` field
parses, is incremented before assignment at each `+` line and each
non-header context line, and is left untouched (with no number assigned)
at `-` lines. -/
theorem numbering_assignment_spec (diff : List Char) :
    (numberLoop (splitOnNewline diff) 0).map Prod.fst = specAssigned (splitOnNewline diff) 0 :=
  numberLoop_spec (splitOnNewline diff) 0

/-- Python `\x5cw` on ASCII text: letters, digits, underscore. -/
def isWordChar (c : Char) : Bool :=
  c.isAlphanum || c = '_'

/-- Python `\x5cs`: the six ASCII whitespace characters. -/
def isPySpace (c : Char) : Bool :=
  c = ' ' || c = '\t' || c = '\n' || c = '\r' || c = '\x0b' || c = '\x0c'

/-- Models `re.findall(r"(\x5cw+)\x5cs*\x5c(", line)` as a left-to-right
scan: a maximal word-character run followed by optional whitespace and an
opening parenthesis yields the run; scanning resumes after the
parenthesis.  State: the current run (reversed) and whether whitespace was
seen since the run ended. -/
def findCallsAux : List Char → List Char → Bool → List (List Char)
  | [], _, _ => []
  | c :: rest, run, sawWs =>
    if isWordChar c then
      if sawWs then findCallsAux rest [c] false
      else findCallsAux rest (c :: run) false
    else if isPySpace c then
      match run with
      | [] => findCallsAux rest [] false
      | _ => findCallsAux rest run true
    else if c = '(' then
      match run with
      | [] => findCallsAux rest [] false
      | _ => run.reverse :: findCallsAux rest [] false
    else findCallsAux rest [] false

/-- All identifier-before-parenthesis matches in one line. -/
def findIdentCalls (line : List Char) : List (List Char) :=
  findCallsAux line [] false

/-- The loop of `get_called_functions`: scan every line starting with `+`
for identifier-parenthesis matches, skip every other line. -/
def calledLoop : List (List Char) → List (List Char)
  | [] => []
  | ('+' :: cs) :: rest => findIdentCalls ('+' :: cs) ++ calledLoop rest
  | _ :: rest => calledLoop rest

/-- `get_called_functions(diff_content)` from `code_review.py`; the Python
`set` is modelled as the list of matches in scan order. -/
def get_called_functions (diff : List Char) : List (List Char) :=
  calledLoop (splitOnNewline diff)

/-- C10: any line whose first character is `+` — git file headers such as
`+++ b/path` included — is treated as Added by the whole pipeline: the
numbering pass numbers it, `get_position_in_diff` bumps the line counter at
it and lets it match the target, and `get_called_functions` scans it for
identifier-parenthesis names; symmetrically any line starting with `-`
(including `--- a/path`) is treated as Removed: unnumbered, counter
untouched, position counter bumped, not scanned. -/
theorem plus_minus_dispatch (lp lm : List Char) (rest : List (List Char))
    (t c : Int) (cp : Nat) (cl : Option Int)
    (hp : lp.head? = some '+') (hm : lm.head? = some '-') :
    numberLoop (lp :: rest) c = (some (c + 1), lp) :: numberLoop rest (c + 1) ∧
    numberLoop (lm :: rest) c = (none, lm) :: numberLoop rest c ∧
    posLoop t (lp :: rest) (some c) cp =
      (if c + 1 = t then Except.ok (some (cp + 1)) else posLoop t rest (some (c + 1)) (cp + 1)) ∧
    posLoop t (lm :: rest) cl cp = posLoop t rest cl (cp + 1) ∧
    calledLoop (lp :: rest) = findIdentCalls lp ++ calledLoop rest ∧
    calledLoop (lm :: rest) = calledLoop rest := by
  cases lp with
  | nil => simp at hp
  | cons x xs =>
    cases lm with
    | nil => simp at hm
    | cons y ys =>
      have hx : x = '+' := by simpa using hp
      have hy : y = '-' := by simpa using hm
      subst hx
      subst hy
      have hclp : classify ('+' :: xs) = LineKind.added := rfl
      have hclm : classify ('-' :: ys) = LineKind.removed := rfl
      refine ⟨?_, ?_, ?_, ?_, rfl, rfl⟩
      · simp only [numberLoop, hclp]
      · simp only [numberLoop, hclm]
      · simp only [posLoop, hclp]
      · simp only [posLoop, hclm]

/-- C10 (witness): the dispatch theorem applied at the git file-header
lines `+++ b/path (x)` and `--- a/path`; the `+` header is scanned for
calls (yielding `path`, from `path (`) and matches target 1 at position 1,
while the `-` header is skipped. -/
theorem plus_minus_dispatch_check :
    calledLoop [("+++ b/path (x)".toList)] = [('p' :: 'a' :: 't' :: 'h' :: [])] ∧
    posLoop 1 [("+++ b/path".toList)] (some 0) 0 = Except.ok (some 1) := by
  constructor
  · rw [(plus_minus_dispatch ("+++ b/path (x)".toList) ("--- a/path".toList) [] 1 0 0 none
      rfl rfl).2.2.2.2.1]
    rfl
  · rw [(plus_minus_dispatch ("+++ b/path".toList) ("--- a/path".toList) [] 1 0 0 none
      rfl rfl).2.2.1]
    rfl

/-- The constant `FUNCTION_DEF_TOKEN_LIMIT = 2000` from `code_review.py`. -/
def FUNCTION_DEF_TOKEN_LIMIT : Nat := 2000

/-- The label prepended to every included definition:
`"\x5cn\x5cn--- Function Definition (File: " + filename + ") ---\x5cn"`. -/
def defLabel (filename : List Char) : List Char :=
  ("\n\n--- Function Definition (File: ".toList) ++ filename ++ (") ---\n".toList)

/-- Outcome of the external `ast` pass of `extract_python_function_def` for
one file and one function name: the file failed to parse (`SyntaxError`),
no matching `FunctionDef`/`AsyncFunctionDef` node exists, or the source
segment of the first matching node in `ast.walk` order. -/
inductive AstResult where
  | syntaxError : AstResult
  | notFound : AstResult
  | found : List Char → AstResult

/-- `extract_python_function_def(content, function_name, filename)` with
the `ast` work abstracted into `astRes` and the tokenizer into `tokens`:
a parse error or a missing definition contributes the empty string; a found
definition is included verbatim under the file label when its token count
is within `FUNCTION_DEF_TOKEN_LIMIT` and skipped (empty string) otherwise. -/
def extract_python_function_def (tokens : List Char → Nat) (astRes : AstResult)
    (filename : List Char) : List Char :=
  match astRes with
  | .syntaxError => []
  | .notFound => []
  | .found funcDef =>
    if tokens funcDef ≤ FUNCTION_DEF_TOKEN_LIMIT then defLabel filename ++ funcDef else []

/-- A `\x7b` occurs before the next newline (the tail of the regex
`.*\x5c).*` up to the opening brace, where `.` never crosses a newline). -/
def braceBefore : List Char → Bool
  | [] => false
  | c :: rest => if c = '\n' then false else if c = '{' then true else braceBefore rest

/-- Models `.*\x5c).*` followed by an opening brace within the current
line: some `)` occurs, with a `\x7b` after it, both before the next
newline. -/
def bracePattern : List Char → Bool
  | [] => false
  | c :: rest =>
    if c = '\n' then false
    else if c = ')' then braceBefore rest || bracePattern rest
    else bracePattern rest

/-- Models `\x5cs*\x5c(` followed by `.*\x5c).*` and the brace, after the
function name: skip whitespace, require `(`, then `bracePattern`. -/
def afterNameMatch (s : List Char) : Bool :=
  match s.dropWhile isPySpace with
  | '(' :: rest => bracePattern rest
  | _ => false

/-- One alternation branch of the regex of `extract_function_def_regex`:
the keyword, at least one whitespace character, the function name, then
`afterNameMatch`. -/
def matchKeyword (kw funcName s : List Char) : Bool :=
  if kw.isPrefixOf s then
    match s.drop kw.length with
    | [] => false
    | c :: rest =>
      if isPySpace c then
        let r := rest.dropWhile isPySpace
        if funcName.isPrefixOf r then afterNameMatch (r.drop funcName.length) else false
      else false
  else false

/-- Models the anchored pattern
`^(def|function)\x5cs+name\x5cs*\x5c(.*\x5c).*` + brace at one candidate
position (a line start). -/
def matchesDefAt (funcName s : List Char) : Bool :=
  matchKeyword ("def".toList) funcName s || matchKeyword ("function".toList) funcName s

/-- The suffixes of the text starting just after each newline: together
with the text itself these are the positions `^` can match in
`re.MULTILINE` mode. -/
def suffixesAfterNewlines : List Char → List (List Char)
  | [] => []
  | c :: rest =>
    if c = '\n' then rest :: suffixesAfterNewlines rest else suffixesAfterNewlines rest

/-- Models `re.search(pattern, content, re.MULTILINE)`: the first line
start (in position order) at which the definition pattern matches,
returned as the suffix of the content from that point. -/
def searchDefMatch (funcName content : List Char) : Option (List Char) :=
  (content :: suffixesAfterNewlines content).find? (matchesDefAt funcName)

/-- Models `content[start:end]` with `end = content.find("\x5cn\x5cn",
start)` (or the end of the text when absent): everything up to the first
blank line. -/
def takeUntilDoubleNewline : List Char → List Char
  | '\n' :: '\n' :: _ => []
  | c :: rest => c :: takeUntilDoubleNewline rest
  | [] => []

/-- `extract_function_def_regex(content, function_name, filename)` with the
tokenizer as a parameter: search for the anchored definition pattern, cut
the match at the first blank line, and include the cut text verbatim under
the file label when its token count is within `FUNCTION_DEF_TOKEN_LIMIT`,
contributing the empty string otherwise. -/
def extract_function_def_regex (tokens : List Char → Nat)
    (content funcName filename : List Char) : List Char :=
  match searchDefMatch funcName content with
  | none => []
  | some s =>
    let funcDef := takeUntilDoubleNewline s
    if tokens funcDef ≤ FUNCTION_DEF_TOKEN_LIMIT then defLabel filename ++ funcDef else []

/-- One file visited by the `os.walk` loop of `get_function_definitions`:
a `.py` file carries the outcome of its `ast` pass for the searched name,
any other file carries its text content (a file whose read raises is the
`.py` case with `AstResult.notFound`-like empty contribution, matching the
`except` branch that skips the file). -/
inductive RepoFile where
  | pyFile : List Char → AstResult → RepoFile
  | otherFile : List Char → List Char → RepoFile

/-- The contribution of one visited file to `get_function_definitions`. -/
def defContribution (tokens : List Char → Nat) (funcName : List Char) : RepoFile → List Char
  | .pyFile fn astRes => extract_python_function_def tokens astRes fn
  | .otherFile fn content => extract_function_def_regex tokens content funcName fn

/-- `get_function_definitions(repo_path, file_extension, function_name)`:
the concatenation, in walk order, of the per-file contributions. -/
def get_function_definitions (tokens : List Char → Nat) (funcName : List Char) :
    List RepoFile → List Char
  | [] => []
  | f :: rest => defContribution tokens funcName f ++ get_function_definitions tokens funcName rest

/-- C9: the text returned by `get_function_definitions` is the
concatenation of per-file contributions, and every contribution is either
empty or a labeled definition included verbatim — exactly the text the
`ast`/regex search located, never truncated — whose token count is at most
`FUNCTION_DEF_TOKEN_LIMIT`; an over-limit definition contributes the empty
string. -/
theorem definition_token_cap (tokens : List Char → Nat) (funcName : List Char)
    (f : RepoFile) (files : List RepoFile) :
    get_function_definitions tokens funcName files =
      concatAll (files.map (defContribution tokens funcName)) ∧
    (defContribution tokens funcName f = [] ∨
      ∃ fn fd, tokens fd ≤ FUNCTION_DEF_TOKEN_LIMIT ∧
        defContribution tokens funcName f = defLabel fn ++ fd ∧
        ((∃ a, f = RepoFile.pyFile fn a ∧ a = AstResult.found fd) ∨
         (∃ content s, f = RepoFile.otherFile fn content ∧
            searchDefMatch funcName content = some s ∧ fd = takeUntilDoubleNewline s))) := by
  constructor
  · induction files with
    | nil => rfl
    | cons g rest ih => simp only [get_function_definitions, concatAll, List.map_cons, ih]
  · cases f with
    | pyFile fn astRes =>
      cases astRes with
      | syntaxError => left; rfl
      | notFound => left; rfl
      | found fd =>
        by_cases h : tokens fd ≤ FUNCTION_DEF_TOKEN_LIMIT
        · right
          exact ⟨fn, fd, h,
            by simp [defContribution, extract_python_function_def, h],
            Or.inl ⟨AstResult.found fd, rfl, rfl⟩⟩
        · left
          simp [defContribution, extract_python_function_def, h]
    | otherFile fn content =>
      cases hs : searchDefMatch funcName content with
      | none => left; simp [defContribution, extract_function_def_regex, hs]
      | some s =>
        by_cases h : tokens (takeUntilDoubleNewline s) ≤ FUNCTION_DEF_TOKEN_LIMIT
        · right
          exact ⟨fn, takeUntilDoubleNewline s, h,
            by simp [defContribution, extract_function_def_regex, hs, h],
            Or.inr ⟨content, s, rfl, hs, rfl⟩⟩
        · left
          simp [defContribution, extract_function_def_regex, hs, h]

end CodeReview
